import Mathlib

/-!
# Verification of the bill-splitting core (`src/core.ts`) and its input validator

Shallow embedding conventions:

* JavaScript numbers are modelled as exact rationals (`ℚ`).  All monetary
  arithmetic in the source stays within decimals that `ℚ` represents exactly,
  and the specification speaks in exact decimal terms, so `ℚ` is the faithful
  idealisation of the source's numeric intent.
* `Math.round x` (round to nearest, half toward `+∞`) is modelled as
  `⌊x + 1/2⌋`, and `Math.floor` as `⌊·⌋`; both are implemented with the
  computable `Rat.floor` and bridged to Mathlib's `Int.floor` by lemmas.
* The TypeScript tagged union `BillItem = SharedBillItem | PersonalBillItem`
  becomes an inductive type with two constructors.
* `adjustAmount` mutates an array in place inside two `while` loops; it is
  embedded as explicit state passing (`incLoop` / `decLoop`, well-founded
  recursion on the remaining gap).  Indexing `sortedItems[0]` on an empty
  array throws a `TypeError` in JavaScript; this failure is modelled by
  `Option`, with `none` for the thrown exception.  The loop functions also
  return the number of iterations performed, which the source exposes only
  as its running time.
* `Array.prototype.sort` is stable (ECMAScript 2019); it is modelled by the
  stable `List.mergeSort`.  `a.name.localeCompare(b.name)` is modelled as the
  lexicographic order on strings.
* The validator receives untyped JSON (`data: any`); JSON values are embedded
  as the inductive type `Json`, and `throw new Error(msg)` as
  `Except.error msg`.  A JavaScript field access that yields `undefined` is
  modelled as `Json.null`: `undefined` and `null` behave identically under
  every check the validator performs (both are falsy, and neither is a
  string / number / boolean / array).
-/

/-! ## Rounding primitives (`round1`, `floor1` from `core.ts`) -/

/-- JavaScript `Math.round`: round to the nearest integer, half toward `+∞`. -/
def mathRound (x : ℚ) : ℤ := (x + 1/2).floor

/-- JavaScript `Math.floor`. -/
def mathFloor (x : ℚ) : ℤ := x.floor

/-- Source: `function round1(num) { return Math.round(num * 10) / 10 }` -/
def round1 (num : ℚ) : ℚ := (mathRound (num * 10) : ℚ) / 10

/-- Source: `function floor1(num) { return Math.floor(num * 10) / 10 }` -/
def floor1 (num : ℚ) : ℚ := (mathFloor (num * 10) : ℚ) / 10

theorem mathRound_eq (x : ℚ) : mathRound x = round x := by
  rw [mathRound, round_eq, Rat.floor_def', Rat.floor_def]

theorem mathFloor_eq (x : ℚ) : mathFloor x = ⌊x⌋ := by
  rw [mathFloor, Rat.floor_def', Rat.floor_def]

theorem round1_eq (num : ℚ) : round1 num = (round (num * 10) : ℚ) / 10 := by
  rw [round1, mathRound_eq]

theorem floor1_eq (num : ℚ) : floor1 num = ((⌊num * 10⌋ : ℤ) : ℚ) / 10 := by
  rw [floor1, mathFloor_eq]

/-! ## Data model (`core.ts` types) -/

/-- Source: `BillItem = SharedBillItem | PersonalBillItem`, the tagged union over
`isShared`.  Both shapes carry `name` and `price`; the personal shape adds
`person`. -/
inductive BillItem where
  | shared (name : String) (price : ℚ)
  | personal (name : String) (price : ℚ) (person : String)
deriving DecidableEq

/-- Source: `item.price` -/
def BillItem.price : BillItem → ℚ
  | .shared _ p => p
  | .personal _ p _ => p

/-- Source: `item.isShared` -/
def BillItem.isShared : BillItem → Bool
  | .shared _ _ => true
  | .personal _ _ _ => false

/-- The input record `BillInput`. -/
structure BillInput where
  date : String
  location : String
  tipPercentage : ℚ
  items : List BillItem
deriving DecidableEq

/-- The output's per-person record `PersonItem`. -/
structure PersonItem where
  name : String
  amount : ℚ
deriving DecidableEq

/-- The output record `BillOutput`. -/
structure BillOutput where
  date : String
  location : String
  subTotal : ℚ
  tip : ℚ
  totalAmount : ℚ
  items : List PersonItem
deriving DecidableEq

/-! ## Pure pipeline (`formatDate`, aggregator, allocator) -/

/-- Rendering of JavaScript `parseInt(s)` inside a template literal: the
longest digit prefix is parsed, and a parse failure renders as `"NaN"`.
(The source only applies this to the digit fields of a well-formed date.) -/
def parseIntRender (s : String) : String :=
  match (s.takeWhile Char.isDigit).toNat? with
  | some n => toString n
  | none => "NaN"

/-- Source: `formatDate` from `core.ts`: `"YYYY-MM-DD"` to `"YYYY年M月D日"`, months
and days rendered without leading zeros.  A destructuring of a too-short
split yields `undefined` in JavaScript, which renders as `"undefined"`. -/
def formatDate (date : String) : String :=
  let parts := date.splitOn "-"
  let year := parts.getD 0 "undefined"
  let month := parts.getD 1 "undefined"
  let day := parts.getD 2 "undefined"
  year ++ "年" ++ parseIntRender month ++ "月" ++ parseIntRender day ++ "日"

/-- Source: `calculateSubTotal`: `items.reduce((sum, item) => sum + item.price, 0)`. -/
def calculateSubTotal (items : List BillItem) : ℚ :=
  items.foldl (fun sum item => sum + item.price) 0

/-- Source: `calculateTip`: `Math.round(subTotal * (tipPercentage / 100) * 10) / 10`. -/
def calculateTip (subTotal : ℚ) (tipPercentage : ℚ) : ℚ :=
  round1 (subTotal * (tipPercentage / 100))

/-- Source: `scanPersons`: collect the distinct `person` fields of personal items.
A JavaScript `Set` preserves insertion order, so the result lists persons in
order of first appearance. -/
def scanPersons (items : List BillItem) : List String :=
  items.foldl
    (fun acc item =>
      match item with
      | .shared _ _ => acc
      | .personal _ _ person => if person ∈ acc then acc else acc ++ [person])
    []

/-- Source: `calculatePersonAmount` from `core.ts`: the person's raw share
(personal items in full, shared items split by the global participant
count) plus the proportional tip. -/
def calculatePersonAmount (items : List BillItem) (tipPercentage : ℚ)
    (name : String) (persons : ℕ) : ℚ :=
  let personalTotal :=
    (items.filter fun item =>
        match item with
        | .shared _ _ => false
        | .personal _ _ person => person == name).foldl
      (fun sum item => sum + item.price) 0
  let sharedTotal :=
    (items.filter fun item => item.isShared).foldl
      (fun sum item => sum + item.price / (persons : ℚ)) 0
  let total := personalTotal + sharedTotal
  let tip := total * (tipPercentage / 100)
  total + tip

/-- Source: `calculateItems`: one `PersonItem` per distinct participant, amount
rounded to the nearest tenth. -/
def calculateItems (items : List BillItem) (tipPercentage : ℚ) :
    List PersonItem :=
  let names := scanPersons items
  let persons := names.length
  names.map fun name =>
    { name := name
      amount := round1 (calculatePersonAmount items tipPercentage name persons) }

/-! ## The remainder reconciler (`adjustAmount` from `core.ts`) -/

/-- The comparator `(a, b) => a.name.localeCompare(b.name)` as a sort
predicate (lexicographic order on strings). -/
def byName (a b : PersonItem) : Bool := a.name ≤ b.name

/-- The comparator `(a, b) => a.amount - b.amount` (ascending amount). -/
def byAmountAsc (a b : PersonItem) : Bool := a.amount ≤ b.amount

/-- The comparator `(a, b) => b.amount - a.amount` (descending amount). -/
def byAmountDesc (a b : PersonItem) : Bool := b.amount ≤ a.amount

/-- Source: `items.slice().sort(byName).sort(byAmountAsc)`: both ECMAScript sorts are
stable, modelled by the stable `List.mergeSort`. -/
def sortInc (items : List PersonItem) : List PersonItem :=
  (items.mergeSort byName).mergeSort byAmountAsc

/-- Source: `items.slice().sort(byName).sort(byAmountDesc)`. -/
def sortDec (items : List PersonItem) : List PersonItem :=
  (items.mergeSort byName).mergeSort byAmountDesc

/-- The in-place mutation `target.amount = round1(target.amount + delta)`
applied to the element `target` of `items` (`sortedItems[0]` aliases an
element of `items` in the source).  Participant names are pairwise distinct
(they come from the deduplicating `scanPersons`), so the mutated element is
identified by its name. -/
def applyDelta (items : List PersonItem) (target : PersonItem) (delta : ℚ) :
    List PersonItem :=
  items.map fun x =>
    if x.name = target.name then { x with amount := round1 (x.amount + delta) } else x

theorem le_round1_add_tenth (p : ℚ) : p + 1/20 ≤ round1 (p + 1/10) := by
  rw [round1_eq, round_eq]
  have h : (10 : ℚ) * p + 1 + 1/2 - 1 < (⌊(p + 1/10) * 10 + 1/2⌋ : ℚ) := by
    have := Int.sub_one_lt_floor ((p + 1/10) * 10 + 1/2)
    nlinarith [this]
  nlinarith [h]

theorem round1_sub_tenth_le (p : ℚ) : round1 (p - 1/10) ≤ p - 1/20 := by
  rw [round1_eq, round_eq]
  have h : (⌊(p - 1/10) * 10 + 1/2⌋ : ℚ) ≤ (p - 1/10) * 10 + 1/2 :=
    Int.floor_le _
  nlinarith [h]

theorem gap_measure_lt {t p q : ℚ} (hlt : p < t) (hq : p + 1/20 ≤ q) :
    (⌈(t - q) * 20⌉).toNat < (⌈(t - p) * 20⌉).toNat := by
  have h1 : (t - q) * 20 ≤ (t - p) * 20 - 1 := by nlinarith
  have h2 : ⌈(t - q) * 20⌉ ≤ ⌈(t - p) * 20 - 1⌉ := Int.ceil_le_ceil h1
  have h3 : ⌈(t - p) * 20 - 1⌉ = ⌈(t - p) * 20⌉ - 1 := by
    exact_mod_cast Int.ceil_sub_int ((t - p) * 20) 1
  have h4 : (0 : ℤ) < ⌈(t - p) * 20⌉ := Int.ceil_pos.mpr (by nlinarith)
  omega

theorem gap_measure_lt_dec {t p q : ℚ} (hlt : t < p) (hq : q ≤ p - 1/20) :
    (⌈(q - t) * 20⌉).toNat < (⌈(p - t) * 20⌉).toNat := by
  have h1 : (q - t) * 20 ≤ (p - t) * 20 - 1 := by nlinarith
  have h2 : ⌈(q - t) * 20⌉ ≤ ⌈(p - t) * 20 - 1⌉ := Int.ceil_le_ceil h1
  have h3 : ⌈(p - t) * 20 - 1⌉ = ⌈(p - t) * 20⌉ - 1 := by
    exact_mod_cast Int.ceil_sub_int ((p - t) * 20) 1
  have h4 : (0 : ℤ) < ⌈(p - t) * 20⌉ := Int.ceil_pos.mpr (by nlinarith)
  omega

/-- The first `while` loop of `adjustAmount`:

```
while (payingTotal < totalAmount) {
  let sortedItems = items.slice().sort(byName).sort(byAmountAsc)
  sortedItems[0].amount = round1(sortedItems[0].amount + 0.1)
  payingTotal = round1(payingTotal + 0.1)
}
```

State is passed explicitly; the returned `ℕ` counts iterations.  Reading
`sortedItems[0]` of an empty array yields `undefined` and the `.amount`
assignment then throws, modelled by `none`. -/
def incLoop (totalAmount : ℚ) (items : List PersonItem) (payingTotal : ℚ)
    (steps : ℕ) : Option (List PersonItem × ℚ × ℕ) :=
  if payingTotal < totalAmount then
    match (sortInc items).head? with
    | none => none
    | some target =>
        incLoop totalAmount (applyDelta items target (1/10))
          (round1 (payingTotal + 1/10)) (steps + 1)
  else
    some (items, payingTotal, steps)
termination_by (⌈(totalAmount - payingTotal) * 20⌉).toNat
decreasing_by
  exact gap_measure_lt (by assumption) (le_round1_add_tenth payingTotal)

/-- The second `while` loop of `adjustAmount` (`payingTotal > totalAmount`,
decrementing the largest share). -/
def decLoop (totalAmount : ℚ) (items : List PersonItem) (payingTotal : ℚ)
    (steps : ℕ) : Option (List PersonItem × ℚ × ℕ) :=
  if payingTotal > totalAmount then
    match (sortDec items).head? with
    | none => none
    | some target =>
        decLoop totalAmount (applyDelta items target (-(1/10)))
          (round1 (payingTotal - 1/10)) (steps + 1)
  else
    some (items, payingTotal, steps)
termination_by (⌈(payingTotal - totalAmount) * 20⌉).toNat
decreasing_by
  exact gap_measure_lt_dec (by assumption) (round1_sub_tenth_le payingTotal)

/-- Source: `adjustAmount` from `core.ts`: floor every amount to a tenth, recompute
`payingTotal`, then run the two redistribution loops.  The source mutates
`items` and returns `void`; the model returns the final list (or `none` for
the thrown `TypeError`). -/
def adjustAmount (totalAmount : ℚ) (items : List PersonItem) :
    Option (List PersonItem) := do
  let floored := items.map fun item => { item with amount := floor1 item.amount }
  let payingTotal :=
    round1 (floored.foldl (fun acc item => acc + item.amount) 0)
  let (itemsUp, payingUp, _) ← incLoop totalAmount floored payingTotal 0
  let (itemsDown, _, _) ← decLoop totalAmount itemsUp payingUp 0
  pure itemsDown

/-- Source: `splitBill` from `core.ts`. -/
def splitBill (input : BillInput) : Option BillOutput :=
  let date := formatDate input.date
  let location := input.location
  let subTotal := calculateSubTotal input.items
  let tip := calculateTip subTotal input.tipPercentage
  let totalAmount := round1 (subTotal + tip)
  let items := calculateItems input.items input.tipPercentage
  (adjustAmount totalAmount items).map fun adjusted =>
    { date := date
      location := location
      subTotal := subTotal
      tip := tip
      totalAmount := totalAmount
      items := adjusted }

/-! ## The input validator (`validateBillInput` from `processor.ts`) -/

/-- Untyped JSON values, as handed to `validateBillInput(data: any)` after
`JSON.parse`.  `Json.null` also stands for `undefined` (see the header
comment). -/
inductive Json where
  | null
  | bool (b : Bool)
  | num (n : ℚ)
  | str (s : String)
  | arr (xs : List Json)
  | obj (fields : List (String × Json))

/-- JavaScript property access `v.key`: defined on objects, `undefined`
(modelled as `Json.null`) on every other value the validator can reach the
access on. -/
def Json.get (v : Json) (key : String) : Json :=
  match v with
  | .obj fields =>
      match fields.find? (fun f => f.fst = key) with
      | some f => f.snd
      | none => .null
  | _ => .null

/-- JavaScript truthiness of a value (`!v` is its negation): `null`,
`undefined`, `false`, `0` and `""` are falsy. -/
def Json.truthy : Json → Bool
  | .null => false
  | .bool b => b
  | .num n => n != 0
  | .str s => s != ""
  | .arr _ => true
  | .obj _ => true

/-- Source: `typeof v === 'object'` (true for `null`, arrays and objects). -/
def Json.typeofObject : Json → Bool
  | .null => true
  | .arr _ => true
  | .obj _ => true
  | _ => false

/-- Source: `typeof v === 'string'` -/
def Json.isStr : Json → Bool
  | .str _ => true
  | _ => false

/-- Source: `typeof v === 'number'` -/
def Json.isNum : Json → Bool
  | .num _ => true
  | _ => false

/-- Source: `typeof v === 'boolean'` -/
def Json.isBool : Json → Bool
  | .bool _ => true
  | _ => false

/-- Boolean value of a JSON boolean (`false` otherwise; only consulted after
an `isBool` check succeeded). -/
def Json.asBool : Json → Bool
  | .bool b => b
  | _ => false

/-- Source: `Array.isArray(v)` -/
def Json.isArr : Json → Bool
  | .arr _ => true
  | _ => false

/-- Numeric value of a JSON number (0 otherwise; only consulted after an
`isNum` check succeeded). -/
def Json.asNum : Json → ℚ
  | .num n => n
  | _ => 0

/-- String value of a JSON string (likewise only consulted after checks). -/
def Json.asStr : Json → String
  | .str s => s
  | _ => ""

/-- Elements of a JSON array. -/
def Json.asArr : Json → List Json
  | .arr xs => xs
  | _ => []

/-- The per-item body of `data.items.forEach((item, index) => ...)` in
`validateBillInput`, together with the `data as BillInput` reading of the
item once all checks pass. -/
def validateItem (index : ℕ) (item : Json) : Except String BillItem :=
  if ¬ (item.truthy ∧ item.typeofObject) then
    .error ("Item " ++ toString index ++ " must be an object")
  else if ¬ ((item.get "name").truthy ∧ (item.get "name").isStr) then
    .error ("Item " ++ toString index ++ " missing or invalid name field")
  else if ¬ ((item.get "price").isNum ∧ 0 ≤ (item.get "price").asNum) then
    .error ("Item " ++ toString index ++ " missing or invalid price field")
  else if ¬ (item.get "isShared").isBool then
    .error ("Item " ++ toString index ++ " missing or invalid isShared field")
  else if (item.get "isShared").asBool = false ∧
      ¬ ((item.get "person").truthy ∧ (item.get "person").isStr) then
    .error ("Item " ++ toString index ++
      " missing or invalid person field for personal item")
  else if (item.get "isShared").asBool then
    .ok (.shared (item.get "name").asStr (item.get "price").asNum)
  else
    .ok (.personal (item.get "name").asStr (item.get "price").asNum
      (item.get "person").asStr)

/-- The indexed traversal `data.items.forEach(...)`, stopping at the first
thrown error. -/
def validateItems (index : ℕ) : List Json → Except String (List BillItem)
  | [] => .ok []
  | item :: rest =>
      match validateItem index item with
      | .error msg => .error msg
      | .ok b =>
          match validateItems (index + 1) rest with
          | .error msg => .error msg
          | .ok bs => .ok (b :: bs)

/-- Source: `validateBillInput` from `processor.ts`: checks `date`, `location`,
`tipPercentage` and `items` (plus each item), throwing on the first
violation, and otherwise returns the input read as a `BillInput`
(`return data as BillInput`). -/
def validateBillInput (data : Json) : Except String BillInput :=
  if ¬ (data.truthy ∧ data.typeofObject) then
    .error "Input data must be an object"
  else if ¬ ((data.get "date").truthy ∧ (data.get "date").isStr) then
    .error "Missing or invalid date field"
  else if ¬ ((data.get "location").truthy ∧ (data.get "location").isStr) then
    .error "Missing or invalid location field"
  else if ¬ ((data.get "tipPercentage").isNum ∧
      0 ≤ (data.get "tipPercentage").asNum) then
    .error "Missing or invalid tipPercentage field"
  else if ¬ (data.get "items").isArr then
    .error "Missing or invalid items field (must be an array)"
  else
    match validateItems 0 (data.get "items").asArr with
    | .error msg => .error msg
    | .ok billItems =>
        .ok { date := (data.get "date").asStr
              location := (data.get "location").asStr
              tipPercentage := (data.get "tipPercentage").asNum
              items := billItems }

/-! ## Arithmetic infrastructure: multiples of one tenth -/

/-- A rational that is an integer multiple of `0.1` (all quantities inside
the reconciler are of this shape). -/
def Tenth (q : ℚ) : Prop := ∃ n : ℤ, q = n / 10

theorem tenth_round1 (q : ℚ) : Tenth (round1 q) := ⟨mathRound (q * 10), rfl⟩

theorem tenth_floor1 (q : ℚ) : Tenth (floor1 q) := ⟨mathFloor (q * 10), rfl⟩

theorem Tenth.add {a b : ℚ} (ha : Tenth a) (hb : Tenth b) : Tenth (a + b) := by
  obtain ⟨n, rfl⟩ := ha
  obtain ⟨m, rfl⟩ := hb
  exact ⟨n + m, by push_cast; ring⟩

theorem Tenth.add_tenth {a : ℚ} (ha : Tenth a) : Tenth (a + 1/10) := by
  obtain ⟨n, rfl⟩ := ha
  exact ⟨n + 1, by push_cast; ring⟩

theorem Tenth.sub_tenth {a : ℚ} (ha : Tenth a) : Tenth (a - 1/10) := by
  obtain ⟨n, rfl⟩ := ha
  exact ⟨n - 1, by push_cast; ring⟩

theorem tenth_zero : Tenth 0 := ⟨0, by norm_num⟩

theorem Tenth.round1_self {q : ℚ} (hq : Tenth q) : round1 q = q := by
  obtain ⟨n, rfl⟩ := hq
  rw [round1_eq]
  have h : (n : ℚ) / 10 * 10 = (n : ℚ) := by field_simp
  rw [h, round_intCast]

theorem tenth_step_le {p t : ℚ} (hp : Tenth p) (ht : Tenth t) (h : p < t) :
    p + 1/10 ≤ t := by
  obtain ⟨n, rfl⟩ := hp
  obtain ⟨m, rfl⟩ := ht
  have hnm : n < m := by
    by_contra hc
    push_neg at hc
    have : (m : ℚ) ≤ n := by exact_mod_cast hc
    have : (m : ℚ) / 10 ≤ (n : ℚ) / 10 := by linarith
    linarith
  have : (n : ℚ) + 1 ≤ m := by exact_mod_cast hnm
  have h2 : ((n : ℚ) + 1) / 10 ≤ (m : ℚ) / 10 := by linarith
  calc (n : ℚ) / 10 + 1/10 = ((n : ℚ) + 1) / 10 := by ring
  _ ≤ (m : ℚ) / 10 := h2

theorem tenth_step_ge {p t : ℚ} (hp : Tenth p) (ht : Tenth t) (h : t < p) :
    t ≤ p - 1/10 := by
  have := tenth_step_le ht hp h
  linarith

theorem tenth_pos_le {q : ℚ} (hq : Tenth q) (h : 0 < q) : 1/10 ≤ q := by
  have := tenth_step_le tenth_zero hq h
  linarith

theorem tenth_gap_nat {p t : ℚ} (hp : Tenth p) (ht : Tenth t) (h : p ≤ t) :
    ∃ n : ℕ, (t - p) * 10 = n := by
  obtain ⟨a, rfl⟩ := hp
  obtain ⟨b, rfl⟩ := ht
  have hab : a ≤ b := by
    by_contra hc
    push_neg at hc
    have : (b : ℚ) < a := by exact_mod_cast hc
    have : (b : ℚ) / 10 < (a : ℚ) / 10 := by linarith
    linarith
  refine ⟨(b - a).toNat, ?_⟩
  have hcast : ((b - a).toNat : ℚ) = (b : ℚ) - a := by
    have h1 : ((b - a).toNat : ℤ) = b - a := Int.toNat_of_nonneg (by omega)
    exact_mod_cast congrArg (fun z : ℤ => (z : ℚ)) h1
  rw [hcast]
  ring

theorem round1_zero : round1 0 = 0 := by
  rw [round1_eq]
  norm_num

theorem round1_mono {a b : ℚ} (h : a ≤ b) : round1 a ≤ round1 b := by
  rw [round1_eq, round1_eq, round_eq, round_eq]
  have hf : ⌊a * 10 + 1/2⌋ ≤ ⌊b * 10 + 1/2⌋ := Int.floor_mono (by linarith)
  have : ((⌊a * 10 + 1/2⌋ : ℤ) : ℚ) ≤ ((⌊b * 10 + 1/2⌋ : ℤ) : ℚ) := by
    exact_mod_cast hf
  linarith

theorem round1_nonneg {q : ℚ} (h : 0 ≤ q) : 0 ≤ round1 q := by
  have := round1_mono h
  rw [round1_zero] at this
  exact this

theorem floor1_nonneg {q : ℚ} (h : 0 ≤ q) : 0 ≤ floor1 q := by
  rw [floor1_eq]
  have : (0 : ℤ) ≤ ⌊q * 10⌋ := Int.floor_nonneg.mpr (by linarith)
  have h2 : (0 : ℚ) ≤ ((⌊q * 10⌋ : ℤ) : ℚ) := by exact_mod_cast this
  linarith

/-! ## Fold and sum infrastructure -/

theorem head?_mem {α : Type} {l : List α} {a : α} (h : l.head? = some a) :
    a ∈ l := by
  cases l with
  | nil => simp at h
  | cons x xs => simp at h; simp [h]

theorem foldl_add_eq {α : Type} (f : α → ℚ) :
    ∀ (l : List α) (c : ℚ), l.foldl (fun s x => s + f x) c = c + (l.map f).sum
  | [], c => by simp
  | x :: xs, c => by
    simp only [List.foldl_cons, List.map_cons, List.sum_cons]
    rw [foldl_add_eq f xs (c + f x)]
    ring

theorem tenth_sum {l : List PersonItem} (h : ∀ x ∈ l, Tenth x.amount) :
    Tenth ((l.map PersonItem.amount).sum) := by
  induction l with
  | nil => simpa using tenth_zero
  | cons x xs ih =>
    simp only [List.map_cons, List.sum_cons]
    exact (h x (by simp)).add (ih fun y hy => h y (by simp [hy]))

theorem sum_nonneg_of_mem {α : Type} {l : List α} {f : α → ℚ}
    (h : ∀ x ∈ l, 0 ≤ f x) : 0 ≤ (l.map f).sum := by
  induction l with
  | nil => simp
  | cons x xs ih =>
    simp only [List.map_cons, List.sum_cons]
    have h1 := h x (by simp)
    have h2 := ih fun y hy => h y (by simp [hy])
    linarith

theorem sum_nonpos_of_mem {l : List PersonItem}
    (h : ∀ x ∈ l, x.amount ≤ 0) : (l.map PersonItem.amount).sum ≤ 0 := by
  induction l with
  | nil => simp
  | cons x xs ih =>
    simp only [List.map_cons, List.sum_cons]
    have h1 := h x (by simp)
    have h2 := ih fun y hy => h y (by simp [hy])
    linarith

theorem exists_pos_of_sum_pos {l : List PersonItem}
    (h : 0 < (l.map PersonItem.amount).sum) : ∃ x ∈ l, 0 < x.amount := by
  by_contra hc
  push_neg at hc
  have := sum_nonpos_of_mem hc
  linarith

/-! ## Head of the double stable sort -/

theorem byName_trans : ∀ a b c : PersonItem,
    byName a b → byName b c → byName a c := by
  intro a b c hab hbc
  simp only [byName, decide_eq_true_eq] at hab hbc ⊢
  exact le_trans hab hbc

theorem byName_total : ∀ a b : PersonItem, byName a b || byName b a := by
  intro a b
  simp only [byName, Bool.or_eq_true, decide_eq_true_eq]
  exact le_total a.name b.name

theorem byAmountAsc_trans : ∀ a b c : PersonItem,
    byAmountAsc a b → byAmountAsc b c → byAmountAsc a c := by
  intro a b c hab hbc
  simp only [byAmountAsc, decide_eq_true_eq] at hab hbc ⊢
  exact le_trans hab hbc

theorem byAmountAsc_total : ∀ a b : PersonItem,
    byAmountAsc a b || byAmountAsc b a := by
  intro a b
  simp only [byAmountAsc, Bool.or_eq_true, decide_eq_true_eq]
  exact le_total a.amount b.amount

theorem byAmountDesc_trans : ∀ a b c : PersonItem,
    byAmountDesc a b → byAmountDesc b c → byAmountDesc a c := by
  intro a b c hab hbc
  simp only [byAmountDesc, decide_eq_true_eq] at hab hbc ⊢
  exact le_trans hbc hab

theorem byAmountDesc_total : ∀ a b : PersonItem,
    byAmountDesc a b || byAmountDesc b a := by
  intro a b
  simp only [byAmountDesc, Bool.or_eq_true, decide_eq_true_eq]
  exact le_total b.amount a.amount

theorem sortInc_perm (items : List PersonItem) : List.Perm (sortInc items) items :=
  (List.mergeSort_perm _ byAmountAsc).trans (List.mergeSort_perm items byName)

theorem sortDec_perm (items : List PersonItem) : List.Perm (sortDec items) items :=
  (List.mergeSort_perm _ byAmountDesc).trans (List.mergeSort_perm items byName)

/-- The head of `sort(byName).sort(byAmountAsc)` is an element of the list
with minimal amount, and among the minimal-amount elements it has the least
name (by stability of both sorts). -/
theorem sortInc_head_spec {items : List PersonItem} {target : PersonItem}
    (h : (sortInc items).head? = some target) :
    target ∈ items ∧ (∀ x ∈ items, target.amount ≤ x.amount) ∧
      (∀ x ∈ items, x.amount = target.amount → target.name ≤ x.name) := by
  classical
  obtain ⟨rest, hl3⟩ : ∃ rest, sortInc items = target :: rest := by
    cases he : sortInc items with
    | nil => rw [he] at h; simp at h
    | cons y ys => rw [he] at h; simp at h; exact ⟨ys, by rw [h]⟩
  have perm32 : List.Perm (sortInc items) (items.mergeSort byName) :=
    List.mergeSort_perm _ byAmountAsc
  have perm2i : List.Perm (items.mergeSort byName) items := List.mergeSort_perm items byName
  have perm3i : List.Perm (sortInc items) items := perm32.trans perm2i
  have hmem : target ∈ items := by
    have : target ∈ sortInc items := by rw [hl3]; exact List.mem_cons_self _ _
    exact perm3i.subset this
  have sorted3 : (sortInc items).Pairwise (byAmountAsc · ·) :=
    List.sorted_mergeSort byAmountAsc_trans byAmountAsc_total _
  have hmin : ∀ x ∈ items, target.amount ≤ x.amount := by
    intro x hx
    have hx3 : x ∈ sortInc items := perm3i.mem_iff.mpr hx
    rw [hl3] at hx3
    rcases List.mem_cons.mp hx3 with rfl | hx3
    · exact le_refl _
    · have := List.rel_of_pairwise_cons (hl3 ▸ sorted3) hx3
      simpa only [byAmountAsc, decide_eq_true_eq] using this
  refine ⟨hmem, hmin, ?_⟩
  intro x hx hxeq
  set pred : PersonItem → Bool := fun y => decide (y.amount = target.amount)
    with hpred
  set S : List PersonItem := (items.mergeSort byName).filter pred with hS
  have hS_sub2 : List.Sublist S (items.mergeSort byName) := List.filter_sublist _
  have sortedN2 : (items.mergeSort byName).Pairwise (byName · ·) :=
    List.sorted_mergeSort byName_trans byName_total items
  have hS_name : S.Pairwise (byName · ·) := sortedN2.sublist hS_sub2
  have hS_all : ∀ y ∈ S, y.amount = target.amount := by
    intro y hy
    have := (List.mem_filter.mp hy).2
    simpa only [hpred, decide_eq_true_eq] using this
  have hS_amt : S.Pairwise (byAmountAsc · ·) := by
    refine List.pairwise_of_forall_mem_list ?_
    intro a ha b hb
    have h1 := hS_all a ha
    have h2 := hS_all b hb
    simp only [byAmountAsc, decide_eq_true_eq, h1, h2, le_refl]
  have hS_sub3 : List.Sublist S (sortInc items) :=
    List.sublist_mergeSort byAmountAsc_trans byAmountAsc_total hS_amt hS_sub2
  have hfilter_self : S.filter pred = S := by
    refine List.filter_eq_self.mpr ?_
    intro y hy
    simp only [hpred, decide_eq_true_eq]
    exact hS_all y hy
  have hsubfilter : List.Sublist S ((sortInc items).filter pred) := by
    have := hS_sub3.filter pred
    rwa [hfilter_self] at this
  have hperm_filter : List.Perm ((sortInc items).filter pred) S := perm32.filter pred
  have hSeq : S = (sortInc items).filter pred :=
    hsubfilter.eq_of_length hperm_filter.length_eq.symm
  have hhead : (sortInc items).filter pred = target :: rest.filter pred := by
    rw [hl3, List.filter_cons]
    simp only [hpred, decide_eq_true_eq]
    simp
  have hxS : x ∈ S := by
    refine List.mem_filter.mpr ⟨perm2i.mem_iff.mpr hx, ?_⟩
    simp only [hpred, decide_eq_true_eq]
    exact hxeq
  rw [hSeq, hhead] at hxS
  rcases List.mem_cons.mp hxS with rfl | hxS
  · exact le_refl _
  · have hpw : (target :: rest.filter pred).Pairwise (byName · ·) := by
      rw [hSeq, hhead] at hS_name
      exact hS_name
    have hrel : byName target x := List.rel_of_pairwise_cons hpw hxS
    simpa only [byName, decide_eq_true_eq] using hrel

/-- The head of `sort(byName).sort(byAmountDesc)` is an element of the list
with maximal amount, and among the maximal-amount elements it has the least
name (by stability of both sorts). -/
theorem sortDec_head_spec {items : List PersonItem} {target : PersonItem}
    (h : (sortDec items).head? = some target) :
    target ∈ items ∧ (∀ x ∈ items, x.amount ≤ target.amount) ∧
      (∀ x ∈ items, x.amount = target.amount → target.name ≤ x.name) := by
  classical
  obtain ⟨rest, hl3⟩ : ∃ rest, sortDec items = target :: rest := by
    cases he : sortDec items with
    | nil => rw [he] at h; simp at h
    | cons y ys => rw [he] at h; simp at h; exact ⟨ys, by rw [h]⟩
  have perm32 : List.Perm (sortDec items) (items.mergeSort byName) :=
    List.mergeSort_perm _ byAmountDesc
  have perm2i : List.Perm (items.mergeSort byName) items :=
    List.mergeSort_perm items byName
  have perm3i : List.Perm (sortDec items) items := perm32.trans perm2i
  have hmem : target ∈ items := by
    have : target ∈ sortDec items := by rw [hl3]; exact List.mem_cons_self _ _
    exact perm3i.subset this
  have sorted3 : (sortDec items).Pairwise (byAmountDesc · ·) :=
    List.sorted_mergeSort byAmountDesc_trans byAmountDesc_total _
  have hmax : ∀ x ∈ items, x.amount ≤ target.amount := by
    intro x hx
    have hx3 : x ∈ sortDec items := perm3i.mem_iff.mpr hx
    rw [hl3] at hx3
    rcases List.mem_cons.mp hx3 with rfl | hx3
    · exact le_refl _
    · have := List.rel_of_pairwise_cons (hl3 ▸ sorted3) hx3
      simpa only [byAmountDesc, decide_eq_true_eq] using this
  refine ⟨hmem, hmax, ?_⟩
  intro x hx hxeq
  set pred : PersonItem → Bool := fun y => decide (y.amount = target.amount)
    with hpred
  set S : List PersonItem := (items.mergeSort byName).filter pred with hS
  have hS_sub2 : List.Sublist S (items.mergeSort byName) := List.filter_sublist _
  have sortedN2 : (items.mergeSort byName).Pairwise (byName · ·) :=
    List.sorted_mergeSort byName_trans byName_total items
  have hS_name : S.Pairwise (byName · ·) := sortedN2.sublist hS_sub2
  have hS_all : ∀ y ∈ S, y.amount = target.amount := by
    intro y hy
    have := (List.mem_filter.mp hy).2
    simpa only [hpred, decide_eq_true_eq] using this
  have hS_amt : S.Pairwise (byAmountDesc · ·) := by
    refine List.pairwise_of_forall_mem_list ?_
    intro a ha b hb
    have h1 := hS_all a ha
    have h2 := hS_all b hb
    simp only [byAmountDesc, decide_eq_true_eq, h1, h2, le_refl]
  have hS_sub3 : List.Sublist S (sortDec items) :=
    List.sublist_mergeSort byAmountDesc_trans byAmountDesc_total hS_amt hS_sub2
  have hfilter_self : S.filter pred = S := by
    refine List.filter_eq_self.mpr ?_
    intro y hy
    simp only [hpred, decide_eq_true_eq]
    exact hS_all y hy
  have hsubfilter : List.Sublist S ((sortDec items).filter pred) := by
    have := hS_sub3.filter pred
    rwa [hfilter_self] at this
  have hperm_filter : List.Perm ((sortDec items).filter pred) S :=
    perm32.filter pred
  have hSeq : S = (sortDec items).filter pred :=
    hsubfilter.eq_of_length hperm_filter.length_eq.symm
  have hhead : (sortDec items).filter pred = target :: rest.filter pred := by
    rw [hl3, List.filter_cons]
    simp only [hpred, decide_eq_true_eq]
    simp
  have hxS : x ∈ S := by
    refine List.mem_filter.mpr ⟨perm2i.mem_iff.mpr hx, ?_⟩
    simp only [hpred, decide_eq_true_eq]
    exact hxeq
  rw [hSeq, hhead] at hxS
  rcases List.mem_cons.mp hxS with rfl | hxS
  · exact le_refl _
  · have hpw : (target :: rest.filter pred).Pairwise (byName · ·) := by
      rw [hSeq, hhead] at hS_name
      exact hS_name
    have hrel : byName target x := List.rel_of_pairwise_cons hpw hxS
    simpa only [byName, decide_eq_true_eq] using hrel

/-! ## Properties of `applyDelta` -/

theorem applyDelta_names (items : List PersonItem) (target : PersonItem)
    (delta : ℚ) :
    (applyDelta items target delta).map PersonItem.name =
      items.map PersonItem.name := by
  induction items with
  | nil => rfl
  | cons x xs ih =>
    simp only [applyDelta, List.map_cons] at ih ⊢
    by_cases hx : x.name = target.name
    · simp [hx, ih]
    · simp [hx, ih]

theorem applyDelta_ne_nil {items : List PersonItem} {target : PersonItem}
    {delta : ℚ} (h : items ≠ []) : applyDelta items target delta ≠ [] := by
  cases items with
  | nil => exact absurd rfl h
  | cons x xs => simp [applyDelta]

theorem applyDelta_id_of_not_mem {items : List PersonItem}
    {target : PersonItem} {delta : ℚ}
    (h : target.name ∉ items.map PersonItem.name) :
    applyDelta items target delta = items := by
  induction items with
  | nil => rfl
  | cons x xs ih =>
    simp only [List.map_cons, List.mem_cons, not_or] at h
    have hx : ¬ x.name = target.name := fun hc => h.1 hc.symm
    have hcons : applyDelta (x :: xs) target delta =
        (if x.name = target.name
          then { x with amount := round1 (x.amount + delta) } else x)
          :: applyDelta xs target delta := rfl
    rw [hcons, if_neg hx, ih h.2]

theorem applyDelta_sum {items : List PersonItem} {target : PersonItem}
    {delta : ℚ}
    (hnd : (items.map PersonItem.name).Nodup) (hmem : target ∈ items)
    (ht : ∀ x ∈ items, Tenth x.amount) (hδ : Tenth delta) :
    ((applyDelta items target delta).map PersonItem.amount).sum =
      (items.map PersonItem.amount).sum + delta := by
  induction items with
  | nil => exact absurd hmem (List.not_mem_nil _)
  | cons x xs ih =>
    simp only [List.map_cons, List.nodup_cons] at hnd
    have hcons : applyDelta (x :: xs) target delta =
        (if x.name = target.name
          then { x with amount := round1 (x.amount + delta) } else x)
          :: applyDelta xs target delta := rfl
    by_cases hx : x.name = target.name
    · have hxs : applyDelta xs target delta = xs :=
        applyDelta_id_of_not_mem (hx ▸ hnd.1)
      rw [hcons, if_pos hx, hxs]
      simp only [List.map_cons, List.sum_cons]
      rw [((ht x (by simp)).add hδ).round1_self]
      ring
    · have htgt : target ∈ xs := by
        rcases List.mem_cons.mp hmem with rfl | hm
        · exact absurd rfl hx
        · exact hm
      rw [hcons, if_neg hx]
      simp only [List.map_cons, List.sum_cons]
      rw [ih hnd.2 htgt (fun y hy => ht y (by simp [hy]))]
      ring

theorem applyDelta_tenth {items : List PersonItem} {target : PersonItem}
    {delta : ℚ} (ht : ∀ x ∈ items, Tenth x.amount) :
    ∀ x ∈ applyDelta items target delta, Tenth x.amount := by
  intro x hx
  obtain ⟨y, hy, hyx⟩ := List.mem_map.mp hx
  by_cases hn : y.name = target.name
  · rw [← hyx, if_pos hn]
    exact tenth_round1 _
  · rw [← hyx, if_neg hn]
    exact ht y hy

theorem applyDelta_nonneg_inc {items : List PersonItem} {target : PersonItem}
    (ht : ∀ x ∈ items, Tenth x.amount) (h0 : ∀ x ∈ items, 0 ≤ x.amount) :
    ∀ x ∈ applyDelta items target (1/10), 0 ≤ x.amount := by
  intro x hx
  obtain ⟨y, hy, hyx⟩ := List.mem_map.mp hx
  by_cases hn : y.name = target.name
  · rw [← hyx, if_pos hn]
    have hround : ({ y with amount := round1 (y.amount + 1/10) }
        : PersonItem).amount = y.amount + 1/10 :=
      ((ht y hy).add_tenth).round1_self
    rw [hround]
    have := h0 y hy
    linarith
  · rw [← hyx, if_neg hn]
    exact h0 y hy

theorem eq_of_name_eq {items : List PersonItem}
    (hnd : (items.map PersonItem.name).Nodup) {a b : PersonItem}
    (ha : a ∈ items) (hb : b ∈ items) (h : a.name = b.name) : a = b :=
  List.inj_on_of_nodup_map hnd ha hb h

theorem applyDelta_nonneg_dec {items : List PersonItem} {target : PersonItem}
    (hnd : (items.map PersonItem.name).Nodup) (hmem : target ∈ items)
    (ht : ∀ x ∈ items, Tenth x.amount) (h0 : ∀ x ∈ items, 0 ≤ x.amount)
    (htgt : 1/10 ≤ target.amount) :
    ∀ x ∈ applyDelta items target (-(1/10)), 0 ≤ x.amount := by
  intro x hx
  obtain ⟨y, hy, hyx⟩ := List.mem_map.mp hx
  by_cases hn : y.name = target.name
  · have hyt : y = target := eq_of_name_eq hnd hy hmem hn
    rw [← hyx, if_pos hn]
    have hround : ({ y with amount := round1 (y.amount + -(1/10)) }
        : PersonItem).amount = y.amount - 1/10 := by
      have heq : y.amount + -(1/10) = y.amount - 1/10 := by ring
      show round1 (y.amount + -(1/10)) = y.amount - 1/10
      rw [heq, ((ht y hy).sub_tenth).round1_self]
    rw [hround, hyt]
    linarith
  · rw [← hyx, if_neg hn]
    exact h0 y hy

/-! ## Unfolding the loops -/

theorem incLoop_not_lt {t p : ℚ} (items : List PersonItem) (steps : ℕ)
    (h : ¬ p < t) : incLoop t items p steps = some (items, p, steps) := by
  rw [incLoop]
  simp [h]

theorem decLoop_not_gt {t p : ℚ} (items : List PersonItem) (steps : ℕ)
    (h : ¬ p > t) : decLoop t items p steps = some (items, p, steps) := by
  rw [decLoop]
  simp [h]

theorem incLoop_none {t p : ℚ} {items : List PersonItem} (steps : ℕ)
    (h : p < t) (he : (sortInc items).head? = none) :
    incLoop t items p steps = none := by
  rw [incLoop]
  simp [h, he]

theorem decLoop_none {t p : ℚ} {items : List PersonItem} (steps : ℕ)
    (h : p > t) (he : (sortDec items).head? = none) :
    decLoop t items p steps = none := by
  rw [decLoop]
  simp [h, he]

theorem incLoop_step {t p : ℚ} {items : List PersonItem} {target : PersonItem}
    (steps : ℕ) (h : p < t) (htarget : (sortInc items).head? = some target) :
    incLoop t items p steps =
      incLoop t (applyDelta items target (1/10)) (round1 (p + 1/10))
        (steps + 1) := by
  rw [incLoop]
  simp [h, htarget]

theorem decLoop_step {t p : ℚ} {items : List PersonItem} {target : PersonItem}
    (steps : ℕ) (h : p > t) (htarget : (sortDec items).head? = some target) :
    decLoop t items p steps =
      decLoop t (applyDelta items target (-(1/10))) (round1 (p - 1/10))
        (steps + 1) := by
  rw [decLoop]
  simp [h, htarget]

theorem sortInc_head_of_ne_nil {items : List PersonItem} (h : items ≠ []) :
    ∃ target, (sortInc items).head? = some target := by
  cases he : sortInc items with
  | nil =>
    have := (sortInc_perm items).length_eq
    rw [he] at this
    cases items with
    | nil => exact absurd rfl h
    | cons x xs => simp at this
  | cons y ys => exact ⟨y, rfl⟩

theorem sortDec_head_of_ne_nil {items : List PersonItem} (h : items ≠ []) :
    ∃ target, (sortDec items).head? = some target := by
  cases he : sortDec items with
  | nil =>
    have := (sortDec_perm items).length_eq
    rw [he] at this
    cases items with
    | nil => exact absurd rfl h
    | cons x xs => simp at this
  | cons y ys => exact ⟨y, rfl⟩

/-! ## Loop invariants -/

theorem incLoop_spec_le (t : ℚ) (ht : Tenth t) :
    ∀ (n : ℕ) (items : List PersonItem) (p : ℚ) (steps : ℕ),
      Tenth p → (t - p) * 10 = n →
      (∀ x ∈ items, Tenth x.amount) →
      (items.map PersonItem.amount).sum = p →
      (items.map PersonItem.name).Nodup →
      items ≠ [] →
      ∃ itemsF,
        incLoop t items p steps = some (itemsF, t, steps + n) ∧
        itemsF.map PersonItem.name = items.map PersonItem.name ∧
        (∀ x ∈ itemsF, Tenth x.amount) ∧
        (itemsF.map PersonItem.amount).sum = t ∧
        ((∀ x ∈ items, 0 ≤ x.amount) → ∀ x ∈ itemsF, 0 ≤ x.amount) := by
  intro n
  induction n with
  | zero =>
    intro items p steps hp hgap hten hsum hnd hne
    have hpt : p = t := by
      have : (t - p) * 10 = 0 := by exact_mod_cast hgap
      have : t - p = 0 := by linarith
      linarith
    refine ⟨items, ?_, rfl, hten, by rw [hsum, hpt], fun h => h⟩
    rw [incLoop_not_lt items steps (by rw [hpt]; exact lt_irrefl t)]
    rw [hpt, Nat.add_zero]
  | succ m ih =>
    intro items p steps hp hgap hten hsum hnd hne
    have hplt : p < t := by
      have h1 : (t - p) * 10 = (m : ℚ) + 1 := by exact_mod_cast hgap
      nlinarith
    obtain ⟨target, htarget⟩ := sortInc_head_of_ne_nil hne
    have htmem : target ∈ items := (sortInc_head_spec htarget).1
    have hp2 : round1 (p + 1/10) = p + 1/10 := (hp.add_tenth).round1_self
    have hstep := incLoop_step steps hplt htarget
    have hgap2 : (t - (p + 1/10)) * 10 = (m : ℚ) := by
      have h1 : (t - p) * 10 = (m : ℚ) + 1 := by exact_mod_cast hgap
      linarith
    have hsum2 : ((applyDelta items target (1/10)).map PersonItem.amount).sum
        = p + 1/10 := by
      rw [applyDelta_sum hnd htmem hten ⟨1, by norm_num⟩, hsum]
    have hnames2 := applyDelta_names items target (1/10)
    obtain ⟨itemsF, hloop, hnames, htenF, hsumF, hnonneg⟩ :=
      ih (applyDelta items target (1/10)) (p + 1/10) (steps + 1)
        (hp.add_tenth) (by exact_mod_cast hgap2)
        (applyDelta_tenth hten) hsum2
        (by rw [hnames2]; exact hnd)
        (applyDelta_ne_nil hne)
    refine ⟨itemsF, ?_, by rw [hnames, hnames2], htenF, hsumF, ?_⟩
    · have hsteps : steps + 1 + m = steps + (m + 1) := by omega
      rw [hstep, hp2, hloop, hsteps]
    · intro h0
      exact hnonneg (applyDelta_nonneg_inc hten h0)

theorem decLoop_spec_ge (t : ℚ) (ht : Tenth t) :
    ∀ (n : ℕ) (items : List PersonItem) (p : ℚ) (steps : ℕ),
      Tenth p → (p - t) * 10 = n →
      (∀ x ∈ items, Tenth x.amount) →
      (items.map PersonItem.amount).sum = p →
      (items.map PersonItem.name).Nodup →
      items ≠ [] →
      ∃ itemsF,
        decLoop t items p steps = some (itemsF, t, steps + n) ∧
        itemsF.map PersonItem.name = items.map PersonItem.name ∧
        (∀ x ∈ itemsF, Tenth x.amount) ∧
        (itemsF.map PersonItem.amount).sum = t ∧
        ((0 ≤ t ∧ ∀ x ∈ items, 0 ≤ x.amount) → ∀ x ∈ itemsF, 0 ≤ x.amount) := by
  intro n
  induction n with
  | zero =>
    intro items p steps hp hgap hten hsum hnd hne
    have hpt : p = t := by
      have : (p - t) * 10 = 0 := by exact_mod_cast hgap
      have : p - t = 0 := by linarith
      linarith
    refine ⟨items, ?_, rfl, hten, by rw [hsum, hpt], fun h => h.2⟩
    rw [decLoop_not_gt items steps (by rw [hpt]; exact lt_irrefl t)]
    rw [hpt, Nat.add_zero]
  | succ m ih =>
    intro items p steps hp hgap hten hsum hnd hne
    have hpgt : t < p := by
      have h1 : (p - t) * 10 = (m : ℚ) + 1 := by exact_mod_cast hgap
      nlinarith
    obtain ⟨target, htarget⟩ := sortDec_head_of_ne_nil hne
    obtain ⟨htmem, htmax, -⟩ := sortDec_head_spec htarget
    have hp2 : round1 (p - 1/10) = p - 1/10 := (hp.sub_tenth).round1_self
    have hstep := decLoop_step steps hpgt htarget
    have hgap2 : ((p - 1/10) - t) * 10 = (m : ℚ) := by
      have h1 : (p - t) * 10 = (m : ℚ) + 1 := by exact_mod_cast hgap
      linarith
    have hsum2 : ((applyDelta items target (-(1/10))).map PersonItem.amount).sum
        = p - 1/10 := by
      rw [applyDelta_sum hnd htmem hten ⟨-1, by norm_num⟩, hsum]
      ring
    have hnames2 := applyDelta_names items target (-(1/10))
    obtain ⟨itemsF, hloop, hnames, htenF, hsumF, hnonneg⟩ :=
      ih (applyDelta items target (-(1/10))) (p - 1/10) (steps + 1)
        (hp.sub_tenth) (by exact_mod_cast hgap2)
        (applyDelta_tenth hten) hsum2
        (by rw [hnames2]; exact hnd)
        (applyDelta_ne_nil hne)
    refine ⟨itemsF, ?_, by rw [hnames, hnames2], htenF, hsumF, ?_⟩
    · have hsteps : steps + 1 + m = steps + (m + 1) := by omega
      rw [hstep, hp2, hloop, hsteps]
    · rintro ⟨h0t, h0⟩
      have htgtpos : 1/10 ≤ target.amount := by
        have hposSum : 0 < (items.map PersonItem.amount).sum := by
          rw [hsum]; linarith
        obtain ⟨y, hy, hypos⟩ := exists_pos_of_sum_pos hposSum
        have : 0 < target.amount := lt_of_lt_of_le hypos (htmax y hy)
        exact tenth_pos_le (hten target htmem) this
      exact hnonneg ⟨h0t, applyDelta_nonneg_dec hnd htmem hten h0 htgtpos⟩

/-! ## Full reconciler invariant -/

theorem floored_names (items : List PersonItem) :
    (items.map fun item =>
      ({ item with amount := floor1 item.amount } : PersonItem)).map
        PersonItem.name = items.map PersonItem.name := by
  rw [List.map_map]
  rfl

theorem adjustAmount_spec (t : ℚ) (ht : Tenth t) (items : List PersonItem)
    (hnd : (items.map PersonItem.name).Nodup) (hne : items ≠ []) :
    ∃ itemsF,
      adjustAmount t items = some itemsF ∧
      itemsF.map PersonItem.name = items.map PersonItem.name ∧
      (∀ x ∈ itemsF, Tenth x.amount) ∧
      (itemsF.map PersonItem.amount).sum = t ∧
      ((0 ≤ t ∧ ∀ x ∈ items, 0 ≤ x.amount) → ∀ x ∈ itemsF, 0 ≤ x.amount) := by
  set floored : List PersonItem :=
    items.map fun item => { item with amount := floor1 item.amount }
    with hfloored
  have hfnames : floored.map PersonItem.name = items.map PersonItem.name :=
    floored_names items
  have hfnd : (floored.map PersonItem.name).Nodup := by rw [hfnames]; exact hnd
  have hfne : floored ≠ [] := by
    rw [hfloored]
    cases items with
    | nil => exact absurd rfl hne
    | cons x xs => simp
  have hften : ∀ x ∈ floored, Tenth x.amount := by
    intro x hx
    obtain ⟨y, hy, hyx⟩ := List.mem_map.mp hx
    rw [← hyx]
    exact tenth_floor1 _
  have hfnonneg : (∀ x ∈ items, 0 ≤ x.amount) → ∀ x ∈ floored, 0 ≤ x.amount := by
    intro h0 x hx
    obtain ⟨y, hy, hyx⟩ := List.mem_map.mp hx
    rw [← hyx]
    exact floor1_nonneg (h0 y hy)
  set p₀ : ℚ := round1 (floored.foldl (fun acc item => acc + item.amount) 0)
    with hp₀
  have hsum₀ : (floored.map PersonItem.amount).sum = p₀ := by
    rw [hp₀, foldl_add_eq PersonItem.amount floored 0, zero_add]
    exact ((tenth_sum hften).round1_self).symm
  have hp₀ten : Tenth p₀ := tenth_round1 _
  have hunfold : adjustAmount t items =
      (incLoop t floored p₀ 0).bind fun r =>
        (decLoop t r.1 r.2.1 0).bind fun r2 => some r2.1 := by
    rw [adjustAmount]
    rfl
  by_cases hple : p₀ ≤ t
  · obtain ⟨n, hn⟩ := tenth_gap_nat hp₀ten ht hple
    obtain ⟨itemsM, hinc, hnamesM, htenM, hsumM, hnonnegM⟩ :=
      incLoop_spec_le t ht n floored p₀ 0 hp₀ten hn hften hsum₀ hfnd hfne
    refine ⟨itemsM, ?_, by rw [hnamesM, hfnames], htenM, hsumM, ?_⟩
    · rw [hunfold, hinc]
      simp only [Option.some_bind]
      rw [decLoop_not_gt itemsM 0 (lt_irrefl t)]
      rfl
    · rintro ⟨h0t, h0⟩
      exact hnonnegM (hfnonneg h0)
  · push_neg at hple
    obtain ⟨n, hn⟩ := tenth_gap_nat ht hp₀ten (le_of_lt hple)
    obtain ⟨itemsM, hdec, hnamesM, htenM, hsumM, hnonnegM⟩ :=
      decLoop_spec_ge t ht n floored p₀ 0 hp₀ten hn hften hsum₀ hfnd hfne
    refine ⟨itemsM, ?_, by rw [hnamesM, hfnames], htenM, hsumM, ?_⟩
    · rw [hunfold, incLoop_not_lt floored 0 (not_lt.mpr (le_of_lt hple))]
      simp only [Option.some_bind]
      rw [hdec]
      rfl
    · rintro ⟨h0t, h0⟩
      exact hnonnegM ⟨h0t, hfnonneg h0⟩

/-! ## Pipeline lemmas -/

theorem scanPersons_nodup (items : List BillItem) : (scanPersons items).Nodup := by
  suffices h : ∀ acc : List String, acc.Nodup →
      (items.foldl
        (fun acc item =>
          match item with
          | .shared _ _ => acc
          | .personal _ _ person =>
              if person ∈ acc then acc else acc ++ [person])
        acc).Nodup by
    exact h [] List.nodup_nil
  induction items with
  | nil => intro acc h; simpa using h
  | cons x xs ih =>
    intro acc h
    cases x with
    | shared nm pr => simpa using ih acc h
    | personal nm pr person =>
      simp only [List.foldl_cons]
      by_cases hmem : person ∈ acc
      · simpa [hmem] using ih acc h
      · have hnd : (acc ++ [person]).Nodup := by
          rw [← List.concat_eq_append]
          exact h.concat hmem
        simpa [hmem] using ih (acc ++ [person]) hnd

theorem calculateItems_names (items : List BillItem) (tipPercentage : ℚ) :
    (calculateItems items tipPercentage).map PersonItem.name =
      scanPersons items := by
  simp only [calculateItems, List.map_map]
  exact List.map_id' (scanPersons items)

theorem calculateItems_nodup (items : List BillItem) (tipPercentage : ℚ) :
    ((calculateItems items tipPercentage).map PersonItem.name).Nodup := by
  rw [calculateItems_names]
  exact scanPersons_nodup items

theorem calculateItems_ne_nil {items : List BillItem} {tipPercentage : ℚ}
    (h : scanPersons items ≠ []) :
    calculateItems items tipPercentage ≠ [] := by
  intro hc
  apply h
  have := congrArg (List.map PersonItem.name) hc
  rw [calculateItems_names] at this
  simpa using this

theorem calculateSubTotal_eq_sum (items : List BillItem) :
    calculateSubTotal items = (items.map BillItem.price).sum := by
  rw [calculateSubTotal, foldl_add_eq BillItem.price items 0, zero_add]

theorem splitBill_some {input : BillInput} {out : BillOutput}
    (h : splitBill input = some out) :
    out.date = formatDate input.date ∧
    out.location = input.location ∧
    out.subTotal = calculateSubTotal input.items ∧
    out.tip = calculateTip (calculateSubTotal input.items) input.tipPercentage ∧
    out.totalAmount = round1 (calculateSubTotal input.items +
      calculateTip (calculateSubTotal input.items) input.tipPercentage) ∧
    adjustAmount
      (round1 (calculateSubTotal input.items +
        calculateTip (calculateSubTotal input.items) input.tipPercentage))
      (calculateItems input.items input.tipPercentage) = some out.items := by
  rw [splitBill] at h
  obtain ⟨adjusted, hadj, hout⟩ := Option.map_eq_some'.mp h
  rw [← hout]
  exact ⟨rfl, rfl, rfl, rfl, rfl, by rw [hadj]⟩

theorem splitBill_of_adjust {input : BillInput} {adjusted : List PersonItem}
    (hadj : adjustAmount
      (round1 (calculateSubTotal input.items +
        calculateTip (calculateSubTotal input.items) input.tipPercentage))
      (calculateItems input.items input.tipPercentage) = some adjusted) :
    splitBill input = some
      { date := formatDate input.date
        location := input.location
        subTotal := calculateSubTotal input.items
        tip := calculateTip (calculateSubTotal input.items) input.tipPercentage
        totalAmount := round1 (calculateSubTotal input.items +
          calculateTip (calculateSubTotal input.items) input.tipPercentage)
        items := adjusted } := by
  rw [splitBill, hadj]
  rfl

/-! ## Specification-side definitions (for refinement claims) -/

/-- The specification's per-participant raw share (§4.3), written from the
spec's words: the sum of the prices of the participant's personal items,
plus, for each shared item, its price divided by the global number of
distinct participants. -/
def rawShareSpec (items : List BillItem) (person : String) : ℚ :=
  ((items.filter fun item =>
      match item with
      | .personal _ _ q => decide (q = person)
      | .shared _ _ => false).map BillItem.price).sum +
  ((items.filter fun item => item.isShared).map
      fun item => item.price / ((scanPersons items).length : ℚ)).sum

theorem calculatePersonAmount_eq_spec (items : List BillItem)
    (tipPercentage : ℚ) (name : String) :
    calculatePersonAmount items tipPercentage name (scanPersons items).length =
      rawShareSpec items name * (1 + tipPercentage / 100) := by
  rw [calculatePersonAmount, rawShareSpec]
  have hfilter :
      (items.filter fun item =>
        match item with
        | .shared _ _ => false
        | .personal _ _ person => person == name) =
      (items.filter fun item =>
        match item with
        | .personal _ _ q => decide (q = name)
        | .shared _ _ => false) := by
    refine List.filter_congr ?_
    intro it hmem
    cases it with
    | shared nm pr => rfl
    | personal nm pr pe =>
      show (pe == name) = decide (pe = name)
      by_cases hc : pe = name
      · simp [hc]
      · simp [hc]
  rw [hfilter,
    foldl_add_eq BillItem.price
      (items.filter fun item =>
        match item with
        | .personal _ _ q => decide (q = name)
        | .shared _ _ => false) 0,
    foldl_add_eq (fun item => item.price / ((scanPersons items).length : ℚ))
      (items.filter fun item => item.isShared) 0]
  ring

/-! ## The claims -/

/-- C1 (the reconciliation contract): for every bill with at least one
distinct participant, `splitBill` succeeds and the sum of the output
`amount` values, rounded to the nearest 0.1, equals `totalAmount`
exactly. -/
theorem splitBill_reconciliation (input : BillInput)
    (h : scanPersons input.items ≠ []) :
    ∃ out, splitBill input = some out ∧
      round1 ((out.items.map PersonItem.amount).sum) = out.totalAmount := by
  have ht : Tenth (round1 (calculateSubTotal input.items +
      calculateTip (calculateSubTotal input.items) input.tipPercentage)) :=
    tenth_round1 _
  obtain ⟨itemsF, hadj, hnames, hten, hsum, hnn⟩ :=
    adjustAmount_spec _ ht (calculateItems input.items input.tipPercentage)
      (calculateItems_nodup _ _) (calculateItems_ne_nil h)
  refine ⟨_, splitBill_of_adjust hadj, ?_⟩
  show round1 ((itemsF.map PersonItem.amount).sum) = _
  rw [hsum]
  exact ht.round1_self

/-- C3: the pre-reconciliation amount of every distinct participant `p` is
`round1 (rawShare p * (1 + tipPercentage / 100))`, where the raw share
uses the one global participant count as divisor for every shared item
(refinement of `calculateItems` against the specification formula). -/
theorem calculateItems_eq_spec (items : List BillItem) (tipPercentage : ℚ) :
    calculateItems items tipPercentage =
      (scanPersons items).map fun p =>
        { name := p
          amount := round1 (rawShareSpec items p * (1 + tipPercentage / 100)) } := by
  rw [calculateItems]
  refine List.map_congr_left ?_
  intro name hname
  rw [calculatePersonAmount_eq_spec]

/-- C4: the output `subTotal` is the plain sum of the item prices, `tip` is
`subTotal * tipPercentage / 100` with `10x` rounded half-up to an integer
and divided by 10, and `totalAmount` is `subTotal + tip` rounded the same
way. -/
theorem splitBill_aggregator {input : BillInput} {out : BillOutput}
    (h : splitBill input = some out) :
    out.subTotal = (input.items.map BillItem.price).sum ∧
    out.tip =
      ((round (out.subTotal * input.tipPercentage / 100 * 10) : ℤ) : ℚ) / 10 ∧
    out.totalAmount = ((round ((out.subTotal + out.tip) * 10) : ℤ) : ℚ) / 10 := by
  obtain ⟨-, -, hsub, htip, htot, -⟩ := splitBill_some h
  refine ⟨by rw [hsub, calculateSubTotal_eq_sum], ?_, ?_⟩
  · rw [htip, hsub, calculateTip, round1_eq]
    have harg : calculateSubTotal input.items * (input.tipPercentage / 100) =
        calculateSubTotal input.items * input.tipPercentage / 100 := by ring
    rw [harg]
  · rw [htot, htip, hsub, round1_eq]

/-- C10: an empty `items` list (input outside the validator's guarantee)
does not make `splitBill` fail: both reconciliation loops are vacuous and
the result has `subTotal = 0`, `tip = 0`, `totalAmount = 0` and no output
items. -/
theorem splitBill_empty_items (dt loc : String) (tp : ℚ) :
    splitBill { date := dt, location := loc, tipPercentage := tp, items := [] } =
      some { date := formatDate dt, location := loc, subTotal := 0, tip := 0,
             totalAmount := 0, items := [] } := by
  have h0 : calculateSubTotal ([] : List BillItem) = 0 := rfl
  have htip : calculateTip 0 tp = 0 := by
    rw [calculateTip]
    have harg : (0 : ℚ) * (tp / 100) = 0 := by ring
    rw [harg, round1_zero]
  have hadj0 : adjustAmount 0 ([] : List PersonItem) = some [] := by
    have hunfold : adjustAmount 0 ([] : List PersonItem) =
        (incLoop 0 [] (round1 0) 0).bind
          fun r => (decLoop 0 r.1 r.2.1 0).bind fun r2 => some r2.1 := by
      rw [adjustAmount]
      rfl
    rw [hunfold, round1_zero, incLoop_not_lt [] 0 (lt_irrefl 0)]
    simp only [Option.some_bind]
    rw [decLoop_not_gt [] 0 (lt_irrefl 0)]
    rfl
  have hadj : adjustAmount
      (round1 (calculateSubTotal [] + calculateTip (calculateSubTotal []) tp))
      (calculateItems [] tp) = some [] := by
    have harg : round1 (calculateSubTotal [] +
        calculateTip (calculateSubTotal []) tp) = 0 := by
      rw [h0, htip, add_zero, round1_zero]
    rw [harg]
    exact hadj0
  have hres := @splitBill_of_adjust (BillInput.mk dt loc tp []) _ hadj
  rw [hres]
  simp only [h0, htip, add_zero, round1_zero]

/-- C5 (selection and tie-break of the reconciler): the element the loop
body adjusts — the head of the freshly re-sorted copy — is a member of the
list with the minimal amount (increment loop) or the maximal amount
(decrement loop), and among the tied extremes it is the one with the least
(lexicographically first) name.  Determinism on identical inputs is
definitional: the embedding is a pure function. -/
theorem reconciler_selection (items : List PersonItem) :
    (∀ target, (sortInc items).head? = some target →
      target ∈ items ∧ (∀ x ∈ items, target.amount ≤ x.amount) ∧
        (∀ x ∈ items, x.amount = target.amount → target.name ≤ x.name)) ∧
    (∀ target, (sortDec items).head? = some target →
      target ∈ items ∧ (∀ x ∈ items, x.amount ≤ target.amount) ∧
        (∀ x ∈ items, x.amount = target.amount → target.name ≤ x.name)) :=
  ⟨fun _ h => sortInc_head_spec h, fun _ h => sortDec_head_spec h⟩

/-- C6 (termination and iteration count of the reconciler): with at least
one participant, the increment loop ends at `max payingTotal totalAmount`
and the decrement loop then ends at `totalAmount` exactly, and the two
loops together perform exactly `|totalAmount - payingTotal| / 0.1`
iterations. -/
theorem reconciler_termination (input : BillInput)
    (h : scanPersons input.items ≠ []) :
    let items0 := calculateItems input.items input.tipPercentage
    let floored := items0.map fun item =>
      { item with amount := floor1 item.amount }
    let payingTotal :=
      round1 (floored.foldl (fun acc item => acc + item.amount) 0)
    let totalAmount := round1 (calculateSubTotal input.items +
      calculateTip (calculateSubTotal input.items) input.tipPercentage)
    ∃ (itemsUp itemsDown : List PersonItem) (k1 k2 : ℕ),
      incLoop totalAmount floored payingTotal 0 =
        some (itemsUp, max payingTotal totalAmount, k1) ∧
      decLoop totalAmount itemsUp (max payingTotal totalAmount) 0 =
        some (itemsDown, totalAmount, k2) ∧
      ((k1 : ℚ) + k2) = |totalAmount - payingTotal| * 10 := by
  intro items0 floored payingTotal totalAmount
  have ht : Tenth totalAmount := tenth_round1 _
  have hfnames : floored.map PersonItem.name = items0.map PersonItem.name :=
    floored_names items0
  have hfnd : (floored.map PersonItem.name).Nodup := by
    rw [hfnames]
    exact calculateItems_nodup _ _
  have hfne : floored ≠ [] := by
    intro hc
    have hlen := congrArg List.length hc
    rw [List.length_map] at hlen
    exact absurd (List.length_eq_zero.mp hlen) (calculateItems_ne_nil h)
  have hften : ∀ x ∈ floored, Tenth x.amount := by
    intro x hx
    obtain ⟨y, hy, hyx⟩ := List.mem_map.mp hx
    rw [← hyx]
    exact tenth_floor1 _
  have hpten : Tenth payingTotal := tenth_round1 _
  have hsum₀ : (floored.map PersonItem.amount).sum = payingTotal := by
    show _ = round1 _
    rw [foldl_add_eq PersonItem.amount floored 0, zero_add]
    exact ((tenth_sum hften).round1_self).symm
  by_cases hple : payingTotal ≤ totalAmount
  · obtain ⟨n, hn⟩ := tenth_gap_nat hpten ht hple
    obtain ⟨itemsM, hinc, -, -, -, -⟩ :=
      incLoop_spec_le totalAmount ht n floored payingTotal 0 hpten hn
        hften hsum₀ hfnd hfne
    rw [Nat.zero_add] at hinc
    refine ⟨itemsM, itemsM, n, 0, ?_, ?_, ?_⟩
    · rw [max_eq_right hple]
      exact hinc
    · rw [max_eq_right hple]
      exact decLoop_not_gt itemsM 0 (lt_irrefl totalAmount)
    · rw [abs_of_nonneg (by linarith)]
      push_cast
      linarith [hn]
  · push_neg at hple
    obtain ⟨n, hn⟩ := tenth_gap_nat ht hpten (le_of_lt hple)
    obtain ⟨itemsM, hdec, -, -, -, -⟩ :=
      decLoop_spec_ge totalAmount ht n floored payingTotal 0 hpten hn
        hften hsum₀ hfnd hfne
    rw [Nat.zero_add] at hdec
    refine ⟨floored, itemsM, 0, n, ?_, ?_, ?_⟩
    · rw [max_eq_left (le_of_lt hple)]
      exact incLoop_not_lt floored 0 (not_lt.mpr (le_of_lt hple))
    · rw [max_eq_left (le_of_lt hple)]
      exact hdec
    · rw [abs_of_neg (by linarith)]
      push_cast
      linarith [hn]

/-! ## Non-negativity helpers -/

theorem calculatePersonAmount_nonneg (items : List BillItem)
    (tipPercentage : ℚ) (name : String) (persons : ℕ)
    (hprice : ∀ it ∈ items, 0 ≤ it.price) (htp : 0 ≤ tipPercentage) :
    0 ≤ calculatePersonAmount items tipPercentage name persons := by
  rw [calculatePersonAmount]
  have hpt : 0 ≤ ((items.filter fun item =>
      match item with
      | .shared _ _ => false
      | .personal _ _ person => person == name).map BillItem.price).sum := by
    refine sum_nonneg_of_mem ?_
    intro it hit
    exact hprice it (List.mem_of_mem_filter hit)
  have hst : 0 ≤ ((items.filter fun item => item.isShared).map
      fun item => item.price / (persons : ℚ)).sum := by
    refine sum_nonneg_of_mem ?_
    intro it hit
    exact div_nonneg (hprice it (List.mem_of_mem_filter hit)) (by positivity)
  rw [foldl_add_eq BillItem.price
      (items.filter fun item =>
        match item with
        | .shared _ _ => false
        | .personal _ _ person => person == name) 0,
    foldl_add_eq (fun item => item.price / (persons : ℚ))
      (items.filter fun item => item.isShared) 0]
  have h100 : 0 ≤ tipPercentage / 100 := by positivity
  nlinarith

theorem adjustAmount_nil_inv {t : ℚ} {l : List PersonItem}
    (h : adjustAmount t [] = some l) : l = [] := by
  have hunfold : adjustAmount t ([] : List PersonItem) =
      (incLoop t [] (round1 0) 0).bind
        fun r => (decLoop t r.1 r.2.1 0).bind fun r2 => some r2.1 := by
    rw [adjustAmount]
    rfl
  rw [hunfold, round1_zero] at h
  by_cases h1 : (0 : ℚ) < t
  · rw [incLoop_none 0 h1 (by simp [sortInc])] at h
    simp at h
  · rw [incLoop_not_lt [] 0 h1] at h
    simp only [Option.some_bind] at h
    by_cases h2 : (0 : ℚ) > t
    · rw [decLoop_none 0 h2 (by simp [sortDec])] at h
      simp at h
    · rw [decLoop_not_gt [] 0 h2] at h
      simp at h
      exact h

/-- C7 (non-negativity): if every input price and the tip percentage are
non-negative, every `amount` in the output of `splitBill` is non-negative
(in particular the decrement loop never drives an amount below zero). -/
theorem splitBill_nonneg (input : BillInput) (out : BillOutput)
    (hprice : ∀ it ∈ input.items, 0 ≤ it.price)
    (htp : 0 ≤ input.tipPercentage)
    (h : splitBill input = some out) :
    ∀ x ∈ out.items, 0 ≤ x.amount := by
  obtain ⟨-, -, -, -, -, hadj⟩ := splitBill_some h
  have hs0 : 0 ≤ calculateSubTotal input.items := by
    rw [calculateSubTotal_eq_sum]
    exact sum_nonneg_of_mem hprice
  have htip0 : 0 ≤ calculateTip (calculateSubTotal input.items)
      input.tipPercentage :=
    round1_nonneg (mul_nonneg hs0 (by positivity))
  have ht0 : 0 ≤ round1 (calculateSubTotal input.items +
      calculateTip (calculateSubTotal input.items) input.tipPercentage) :=
    round1_nonneg (by linarith)
  have hinit : ∀ x ∈ calculateItems input.items input.tipPercentage,
      0 ≤ x.amount := by
    intro x hx
    simp only [calculateItems] at hx
    obtain ⟨name, hname, hxeq⟩ := List.mem_map.mp hx
    rw [← hxeq]
    exact round1_nonneg
      (calculatePersonAmount_nonneg _ _ _ _ hprice htp)
  by_cases hne : calculateItems input.items input.tipPercentage = []
  · rw [hne] at hadj
    rw [adjustAmount_nil_inv hadj]
    intro x hx
    exact absurd hx (List.not_mem_nil x)
  · obtain ⟨itemsF, hadj2, -, -, -, hnn⟩ :=
      adjustAmount_spec _ (tenth_round1 _)
        (calculateItems input.items input.tipPercentage)
        (calculateItems_nodup _ _) hne
    rw [hadj2] at hadj
    have heq : itemsF = out.items := Option.some_inj.mp hadj
    rw [← heq]
    exact hnn ⟨ht0, hinit⟩

/-- C8 (tip monotonicity): with the items held fixed (and non-negative
prices), a larger `tipPercentage` never yields a smaller `totalAmount`. -/
theorem totalAmount_tip_monotone (d loc : String) (items : List BillItem)
    (tp1 tp2 : ℚ) (o1 o2 : BillOutput)
    (hprice : ∀ it ∈ items, 0 ≤ it.price) (hle : tp1 ≤ tp2)
    (h1 : splitBill (BillInput.mk d loc tp1 items) = some o1)
    (h2 : splitBill (BillInput.mk d loc tp2 items) = some o2) :
    o1.totalAmount ≤ o2.totalAmount := by
  obtain ⟨-, -, -, -, htot1, -⟩ := splitBill_some h1
  obtain ⟨-, -, -, -, htot2, -⟩ := splitBill_some h2
  have htot1a : o1.totalAmount = round1 (calculateSubTotal items +
      calculateTip (calculateSubTotal items) tp1) := htot1
  have htot2a : o2.totalAmount = round1 (calculateSubTotal items +
      calculateTip (calculateSubTotal items) tp2) := htot2
  have hs0 : 0 ≤ calculateSubTotal items := by
    rw [calculateSubTotal_eq_sum]
    exact sum_nonneg_of_mem hprice
  have htipmono : calculateTip (calculateSubTotal items) tp1 ≤
      calculateTip (calculateSubTotal items) tp2 := by
    refine round1_mono ?_
    have : tp1 / 100 ≤ tp2 / 100 := by linarith
    nlinarith
  rw [htot1a, htot2a]
  exact round1_mono (by linarith)

theorem splitBill_none_of_adjust {input : BillInput}
    (hadj : adjustAmount
      (round1 (calculateSubTotal input.items +
        calculateTip (calculateSubTotal input.items) input.tipPercentage))
      (calculateItems input.items input.tipPercentage) = none) :
    splitBill input = none := by
  rw [splitBill, hadj]
  rfl

/-- C2 (refuted by the code): on a bill whose items are all shared (so there
are zero distinct participants) with a positive total, `splitBill` fails:
`payingTotal = 0 < totalAmount`, the increment loop is entered, and
`sortedItems[0]` of the empty participant list is `undefined`, whose
`.amount` assignment throws a `TypeError` (modelled as `none`). -/
theorem splitBill_shared_only_fails :
    splitBill (BillInput.mk "2024-01-01" "Party" 0 [BillItem.shared "Pizza" 20])
      = none := by
  have hsub : calculateSubTotal [BillItem.shared "Pizza" 20] = 20 := by
    rw [calculateSubTotal]
    norm_num [BillItem.price]
  have htip : calculateTip 20 0 = 0 := by
    rw [calculateTip]
    have harg : (20:ℚ) * (0/100) = 0 := by ring
    rw [harg, round1_zero]
  have ht : round1 ((20:ℚ) + 0) = 20 := by
    rw [add_zero]
    exact Tenth.round1_self ⟨200, by norm_num⟩
  have hitems : calculateItems [BillItem.shared "Pizza" 20] 0 = [] := rfl
  have hadj : adjustAmount 20 ([] : List PersonItem) = none := by
    have hunfold : adjustAmount 20 ([] : List PersonItem) =
        (incLoop 20 [] (round1 0) 0).bind
          fun r => (decLoop 20 r.1 r.2.1 0).bind fun r2 => some r2.1 := by
      rw [adjustAmount]
      rfl
    rw [hunfold, round1_zero, incLoop_none 0 (by norm_num) (by simp [sortInc])]
    rfl
  refine splitBill_none_of_adjust ?_
  show adjustAmount
      (round1 (calculateSubTotal [BillItem.shared "Pizza" 20] +
        calculateTip (calculateSubTotal [BillItem.shared "Pizza" 20]) 0))
      (calculateItems [BillItem.shared "Pizza" 20] 0) = none
  rw [hsub, htip, ht, hitems]
  exact hadj

/-! ## Validator lemmas -/

theorem Json.truthy_str_ne {v : Json} (h1 : v.truthy) (h2 : v.isStr) :
    v.asStr ≠ "" := by
  cases v with
  | str s =>
    show s ≠ ""
    simpa [Json.truthy, bne_iff_ne] using h1
  | null => simp [Json.isStr] at h2
  | bool b => simp [Json.isStr] at h2
  | num n => simp [Json.isStr] at h2
  | arr xs => simp [Json.isStr] at h2
  | obj fs => simp [Json.isStr] at h2

theorem validateItem_ok {index : ℕ} {item : Json} {b : BillItem}
    (h : validateItem index item = Except.ok b) :
    0 ≤ b.price ∧
      ∀ nm pr pe, b = BillItem.personal nm pr pe → pe ≠ "" := by
  rw [validateItem] at h
  split_ifs at h with h1 h2 h3 h4 h5 h6
  all_goals simp only [Except.ok.injEq, reduceCtorEq] at h
  · -- shared item branch
    rw [← h]
    refine ⟨h3.2, ?_⟩
    intro nm pr pe hc
    exact absurd hc (by simp)
  · -- personal item branch
    rw [← h]
    refine ⟨h3.2, ?_⟩
    intro nm pr pe hc
    have hpe : pe = (item.get "person").asStr := by
      cases hc
      rfl
    have hfalse : (item.get "isShared").asBool = false := by
      cases hbool : (item.get "isShared").asBool
      · rfl
      · exact absurd hbool h6
    have hperson : (item.get "person").truthy ∧ (item.get "person").isStr := by
      by_contra hcn
      exact h5 ⟨hfalse, hcn⟩
    rw [hpe]
    exact Json.truthy_str_ne hperson.1 hperson.2

theorem validateItems_ok :
    ∀ {index : ℕ} {js : List Json} {bs : List BillItem},
      validateItems index js = Except.ok bs →
      ∀ b ∈ bs, 0 ≤ b.price ∧
        ∀ nm pr pe, b = BillItem.personal nm pr pe → pe ≠ "" := by
  intro index js
  induction js generalizing index with
  | nil =>
    intro bs h b hb
    rw [validateItems] at h
    have : ([] : List BillItem) = bs := Except.ok.inj h
    rw [← this] at hb
    exact absurd hb (List.not_mem_nil b)
  | cons item rest ih =>
    intro bs h b hb
    rw [validateItems] at h
    cases hv : validateItem index item with
    | error msg => rw [hv] at h; exact absurd h (by simp)
    | ok bi =>
      rw [hv] at h
      cases hr : validateItems (index + 1) rest with
      | error msg => rw [hr] at h; exact absurd h (by simp)
      | ok bis =>
        rw [hr] at h
        have hcons : bi :: bis = bs := Except.ok.inj h
        rw [← hcons] at hb
        rcases List.mem_cons.mp hb with rfl | hbmem
        · exact validateItem_ok hv
        · exact ih hr b hbmem

/-- A well-formed JSON bill object whose `items` array is empty. -/
def emptyItemsJson : Json :=
  Json.obj [("date", Json.str "2024-01-01"), ("location", Json.str "Home"),
    ("tipPercentage", Json.num 10), ("items", Json.arr [])]

/-- C9 counterexample: the validator accepts a bill object whose `items`
array is empty — it never checks non-emptiness — so "accepts only if
`items` is a non-empty array" is false of the code. -/
theorem validateBillInput_accepts_empty_items :
    validateBillInput emptyItemsJson =
      Except.ok { date := "2024-01-01", location := "Home",
                  tipPercentage := 10, items := [] } := by
  rfl

/-- C9 (amended): when the validator returns a bill (instead of throwing),
`items` was an array (possibly empty), every item's `price` is a
non-negative number, every personal item carries a non-empty `person`
string, and `tipPercentage` is a non-negative number. -/
theorem validateBillInput_ok_conditions (data : Json) (b : BillInput)
    (h : validateBillInput data = Except.ok b) :
    (data.get "items").isArr = true ∧
    0 ≤ b.tipPercentage ∧
    ∀ it ∈ b.items, 0 ≤ it.price ∧
      ∀ nm pr pe, it = BillItem.personal nm pr pe → pe ≠ "" := by
  rw [validateBillInput] at h
  split_ifs at h with h1 h2 h3 h4 h5
  cases hv : validateItems 0 (data.get "items").asArr with
  | error msg => rw [hv] at h; exact absurd h (by simp)
  | ok billItems =>
    rw [hv] at h
    simp only [Except.ok.injEq] at h
    refine ⟨h5, ?_, ?_⟩
    · rw [← h]
      exact h4.2
    · intro it hit
      rw [← h] at hit
      exact validateItems_ok hv it hit

/-! ## Concrete example bills (used to instantiate the theorems) -/

/-- A one-participant bill: a single personal item of price 10 for
`"Alice"`, with a parametric tip percentage. -/
def exampleBill (tipPercentage : ℚ) : BillInput :=
  BillInput.mk "2024-03-21" "Cafe" tipPercentage
    [BillItem.personal "Lunch" 10 "Alice"]

theorem calculatePersonAmount_example (tp : ℚ) :
    calculatePersonAmount [BillItem.personal "Lunch" 10 "Alice"] tp "Alice" 1 =
      10 + 10 * (tp / 100) := by
  have hstep : calculatePersonAmount [BillItem.personal "Lunch" 10 "Alice"]
      tp "Alice" 1 =
      (0 + 10 + 0) + (0 + 10 + 0) * (tp / 100) := rfl
  rw [hstep]
  norm_num

theorem calculateItems_example (tp : ℚ) :
    calculateItems [BillItem.personal "Lunch" 10 "Alice"] tp =
      [PersonItem.mk "Alice" (round1 (10 + 10 * (tp / 100)))] := by
  have hstep : calculateItems [BillItem.personal "Lunch" 10 "Alice"] tp =
      [PersonItem.mk "Alice" (round1 (calculatePersonAmount
        [BillItem.personal "Lunch" 10 "Alice"] tp "Alice" 1))] := rfl
  rw [hstep, calculatePersonAmount_example]

theorem floor1_ten : floor1 (10 : ℚ) = 10 := by
  rw [floor1, mathFloor]
  norm_num [Rat.floor_def']

theorem floor1_eleven : floor1 (11 : ℚ) = 11 := by
  rw [floor1, mathFloor]
  norm_num [Rat.floor_def']

theorem adjustAmount_example_ten :
    adjustAmount 10 [PersonItem.mk "Alice" 10] =
      some [PersonItem.mk "Alice" 10] := by
  have hunfold : adjustAmount 10 [PersonItem.mk "Alice" 10] =
      (incLoop 10 [PersonItem.mk "Alice" (floor1 10)]
        (round1 (0 + floor1 10)) 0).bind
        fun r => (decLoop 10 r.1 r.2.1 0).bind fun r2 => some r2.1 := by
    rw [adjustAmount]
    rfl
  have hr : round1 ((0:ℚ) + 10) = 10 := by
    rw [show (0:ℚ) + 10 = 10 by norm_num]
    exact Tenth.round1_self ⟨100, by norm_num⟩
  rw [hunfold, floor1_ten, hr, incLoop_not_lt _ 0 (lt_irrefl 10)]
  simp only [Option.some_bind]
  rw [decLoop_not_gt _ 0 (lt_irrefl 10)]
  rfl

theorem adjustAmount_example_eleven :
    adjustAmount 11 [PersonItem.mk "Alice" 11] =
      some [PersonItem.mk "Alice" 11] := by
  have hunfold : adjustAmount 11 [PersonItem.mk "Alice" 11] =
      (incLoop 11 [PersonItem.mk "Alice" (floor1 11)]
        (round1 (0 + floor1 11)) 0).bind
        fun r => (decLoop 11 r.1 r.2.1 0).bind fun r2 => some r2.1 := by
    rw [adjustAmount]
    rfl
  have hr : round1 ((0:ℚ) + 11) = 11 := by
    rw [show (0:ℚ) + 11 = 11 by norm_num]
    exact Tenth.round1_self ⟨110, by norm_num⟩
  rw [hunfold, floor1_eleven, hr, incLoop_not_lt _ 0 (lt_irrefl 11)]
  simp only [Option.some_bind]
  rw [decLoop_not_gt _ 0 (lt_irrefl 11)]
  rfl

/-- The output of `splitBill` on `exampleBill 0`. -/
def exampleOutZero : BillOutput :=
  BillOutput.mk (formatDate "2024-03-21") "Cafe" 10 0 10
    [PersonItem.mk "Alice" 10]

/-- The output of `splitBill` on `exampleBill 10`. -/
def exampleOutTen : BillOutput :=
  BillOutput.mk (formatDate "2024-03-21") "Cafe" 10 1 11
    [PersonItem.mk "Alice" 11]

theorem splitBill_exampleBill_zero :
    splitBill (exampleBill 0) = some exampleOutZero := by
  have hsub : calculateSubTotal (exampleBill 0).items = 10 := by
    rw [show calculateSubTotal (exampleBill 0).items = 0 + 10 from rfl]
    norm_num
  have htip : calculateTip 10 0 = 0 := by
    rw [calculateTip, show (10:ℚ) * (0/100) = 0 by ring, round1_zero]
  have htot : round1 ((10:ℚ) + 0) = 10 := by
    rw [show (10:ℚ) + 0 = 10 by norm_num]
    exact Tenth.round1_self ⟨100, by norm_num⟩
  have hamt : round1 (10 + 10 * ((0:ℚ) / 100)) = 10 := by
    rw [show (10:ℚ) + 10 * (0/100) = 10 by ring]
    exact Tenth.round1_self ⟨100, by norm_num⟩
  have hitems : calculateItems (exampleBill 0).items 0 =
      [PersonItem.mk "Alice" 10] := by
    rw [show (exampleBill 0).items = [BillItem.personal "Lunch" 10 "Alice"]
      from rfl, calculateItems_example, hamt]
  have hadj : adjustAmount
      (round1 (calculateSubTotal (exampleBill 0).items +
        calculateTip (calculateSubTotal (exampleBill 0).items)
          (exampleBill 0).tipPercentage))
      (calculateItems (exampleBill 0).items (exampleBill 0).tipPercentage) =
      some [PersonItem.mk "Alice" 10] := by
    rw [show (exampleBill 0).tipPercentage = 0 from rfl, hsub, htip, htot,
      hitems]
    exact adjustAmount_example_ten
  have hres := @splitBill_of_adjust (exampleBill 0) _ hadj
  rw [hres]
  rw [show (exampleBill 0).tipPercentage = 0 from rfl, hsub, htip, htot]
  rfl

theorem splitBill_exampleBill_ten :
    splitBill (exampleBill 10) = some exampleOutTen := by
  have hsub : calculateSubTotal (exampleBill 10).items = 10 := by
    rw [show calculateSubTotal (exampleBill 10).items = 0 + 10 from rfl]
    norm_num
  have htip : calculateTip 10 10 = 1 := by
    rw [calculateTip, show (10:ℚ) * ((10:ℚ)/100) = 1 by ring]
    exact Tenth.round1_self ⟨10, by norm_num⟩
  have htot : round1 ((10:ℚ) + 1) = 11 := by
    rw [show (10:ℚ) + 1 = 11 by norm_num]
    exact Tenth.round1_self ⟨110, by norm_num⟩
  have hamt : round1 (10 + 10 * ((10:ℚ) / 100)) = 11 := by
    rw [show (10:ℚ) + 10 * ((10:ℚ)/100) = 11 by ring]
    exact Tenth.round1_self ⟨110, by norm_num⟩
  have hitems : calculateItems (exampleBill 10).items 10 =
      [PersonItem.mk "Alice" 11] := by
    rw [show (exampleBill 10).items = [BillItem.personal "Lunch" 10 "Alice"]
      from rfl, calculateItems_example, hamt]
  have hadj : adjustAmount
      (round1 (calculateSubTotal (exampleBill 10).items +
        calculateTip (calculateSubTotal (exampleBill 10).items)
          (exampleBill 10).tipPercentage))
      (calculateItems (exampleBill 10).items (exampleBill 10).tipPercentage) =
      some [PersonItem.mk "Alice" 11] := by
    rw [show (exampleBill 10).tipPercentage = 10 from rfl, hsub, htip, htot,
      hitems]
    exact adjustAmount_example_eleven
  have hres := @splitBill_of_adjust (exampleBill 10) _ hadj
  rw [hres]
  rw [show (exampleBill 10).tipPercentage = 10 from rfl, hsub, htip, htot]
  rfl

/-! ## Witnesses -/

theorem sortInc_single :
    (sortInc [PersonItem.mk "Alice" 10]).head? = some (PersonItem.mk "Alice" 10) := by
  simp [sortInc]

/-- C1 witness at `exampleBill 0`. -/
theorem splitBill_reconciliation_witness :
    scanPersons (exampleBill 0).items ≠ [] ∧
    ∃ out, splitBill (exampleBill 0) = some out ∧
      round1 ((out.items.map PersonItem.amount).sum) = out.totalAmount :=
  ⟨by decide, splitBill_reconciliation (exampleBill 0) (by decide)⟩

/-- C4 witness at `exampleBill 0`. -/
theorem splitBill_aggregator_witness :
    splitBill (exampleBill 0) = some exampleOutZero ∧
    (exampleOutZero.subTotal =
        ((exampleBill 0).items.map BillItem.price).sum ∧
      exampleOutZero.tip = ((round (exampleOutZero.subTotal *
        (exampleBill 0).tipPercentage / 100 * 10) : ℤ) : ℚ) / 10 ∧
      exampleOutZero.totalAmount = ((round ((exampleOutZero.subTotal +
        exampleOutZero.tip) * 10) : ℤ) : ℚ) / 10) :=
  ⟨splitBill_exampleBill_zero, splitBill_aggregator splitBill_exampleBill_zero⟩

/-- C5 witness on the singleton participant list. -/
theorem reconciler_selection_witness :
    (sortInc [PersonItem.mk "Alice" 10]).head? =
      some (PersonItem.mk "Alice" 10) ∧
    (PersonItem.mk "Alice" 10 ∈ [PersonItem.mk "Alice" 10] ∧
      (∀ x ∈ [PersonItem.mk "Alice" 10],
        (PersonItem.mk "Alice" 10).amount ≤ x.amount) ∧
      (∀ x ∈ [PersonItem.mk "Alice" 10],
        x.amount = (PersonItem.mk "Alice" 10).amount →
          (PersonItem.mk "Alice" 10).name ≤ x.name)) :=
  ⟨sortInc_single,
    (reconciler_selection [PersonItem.mk "Alice" 10]).1
      (PersonItem.mk "Alice" 10) sortInc_single⟩

/-- C6 witness at `exampleBill 0`. -/
theorem reconciler_termination_witness :
    scanPersons (exampleBill 0).items ≠ [] ∧
    (let items0 := calculateItems (exampleBill 0).items
      (exampleBill 0).tipPercentage
    let floored := items0.map fun item =>
      { item with amount := floor1 item.amount }
    let payingTotal :=
      round1 (floored.foldl (fun acc item => acc + item.amount) 0)
    let totalAmount := round1 (calculateSubTotal (exampleBill 0).items +
      calculateTip (calculateSubTotal (exampleBill 0).items)
        (exampleBill 0).tipPercentage)
    ∃ (itemsUp itemsDown : List PersonItem) (k1 k2 : ℕ),
      incLoop totalAmount floored payingTotal 0 =
        some (itemsUp, max payingTotal totalAmount, k1) ∧
      decLoop totalAmount itemsUp (max payingTotal totalAmount) 0 =
        some (itemsDown, totalAmount, k2) ∧
      ((k1 : ℚ) + k2) = |totalAmount - payingTotal| * 10) :=
  ⟨by decide, reconciler_termination (exampleBill 0) (by decide)⟩

/-- C7 witness at `exampleBill 0`. -/
theorem splitBill_nonneg_witness :
    (∀ it ∈ (exampleBill 0).items, 0 ≤ it.price) ∧
    (0 ≤ (exampleBill 0).tipPercentage) ∧
    splitBill (exampleBill 0) = some exampleOutZero ∧
    ∀ x ∈ exampleOutZero.items, 0 ≤ x.amount :=
  ⟨by decide, by decide, splitBill_exampleBill_zero,
    splitBill_nonneg (exampleBill 0) exampleOutZero (by decide) (by decide)
      splitBill_exampleBill_zero⟩

/-- C8 witness: the same items with tip percentages 0 and 10. -/
theorem totalAmount_tip_monotone_witness :
    (∀ it ∈ [BillItem.personal "Lunch" 10 "Alice"], 0 ≤ it.price) ∧
    ((0 : ℚ) ≤ 10) ∧
    splitBill (BillInput.mk "2024-03-21" "Cafe" 0
      [BillItem.personal "Lunch" 10 "Alice"]) = some exampleOutZero ∧
    splitBill (BillInput.mk "2024-03-21" "Cafe" 10
      [BillItem.personal "Lunch" 10 "Alice"]) = some exampleOutTen ∧
    exampleOutZero.totalAmount ≤ exampleOutTen.totalAmount :=
  ⟨by decide, by decide, splitBill_exampleBill_zero, splitBill_exampleBill_ten,
    totalAmount_tip_monotone "2024-03-21" "Cafe"
      [BillItem.personal "Lunch" 10 "Alice"] 0 10 exampleOutZero exampleOutTen
      (by decide) (by decide)
      splitBill_exampleBill_zero splitBill_exampleBill_ten⟩

/-- A well-formed JSON bill object with one personal item. -/
def oneItemJson : Json :=
  Json.obj [("date", Json.str "2024-03-21"), ("location", Json.str "Cafe"),
    ("tipPercentage", Json.num 0),
    ("items", Json.arr [Json.obj [("name", Json.str "Lunch"),
      ("price", Json.num 10), ("isShared", Json.bool false),
      ("person", Json.str "Alice")]])]

/-- The bill record the validator returns on `oneItemJson`. -/
def oneItemBill : BillInput :=
  BillInput.mk "2024-03-21" "Cafe" 0 [BillItem.personal "Lunch" 10 "Alice"]

theorem validateBillInput_oneItemJson :
    validateBillInput oneItemJson = Except.ok oneItemBill := by
  rfl

/-- C9 witness at `oneItemJson`. -/
theorem validateBillInput_ok_conditions_witness :
    validateBillInput oneItemJson = Except.ok oneItemBill ∧
    ((oneItemJson.get "items").isArr = true ∧
      0 ≤ oneItemBill.tipPercentage ∧
      ∀ it ∈ oneItemBill.items, 0 ≤ it.price ∧
        ∀ nm pr pe, it = BillItem.personal nm pr pe → pe ≠ "") :=
  ⟨validateBillInput_oneItemJson,
    validateBillInput_ok_conditions oneItemJson oneItemBill
      validateBillInput_oneItemJson⟩
